import Mathlib

/-!
# Verification development for `mmverify.py` (Metamath proof verifier)

Shallow embedding of the verifier's data model and operations:
tokens are `String`s, expressions are `List String`, Python `set`s and
`dict`s are embedded as lists and association lists (first hit wins on
lookup, so prepending an entry has the observational behaviour of a
Python dict assignment), and fallible operations return
`Except PyError`.  Python builtin exceptions that the script lets
propagate (`IndexError` from list indexing, `ValueError` from
`list.index`, `KeyError` from dict lookup) are embedded as their own
error constructors, distinct from the script's `MMError`/`MMKeyError`.
-/

namespace MMV

/-- Errors.  `mm msg` embeds `MMError(msg)` (the format arguments of the
source's messages are elided, the template text is kept); `mmKey` embeds
`MMKeyError`; `indexError`, `valueError` and `keyError` embed the Python
builtin exceptions that the source does not catch; `noFuel` is the
iteration bound of the database driver loop, never reached when the
supplied fuel exceeds the token count. -/
inductive PyError where
  | mm (msg : String)
  | mmKey (tok : String)
  | indexError
  | valueError
  | keyError
  | noFuel
  deriving DecidableEq, Repr

/-- A lexical scope (`class Frame`): constants `c`, variables `v`,
disjoint pairs `d`, floating hypotheses `f` (pairs `(var, kind)` in
declaration order), label index `f_labels` (var to label), essential
hypotheses `e` (in declaration order) and their label index `e_labels`.
Python sets/dicts are embedded as lists / association lists. -/
structure Frame where
  c : List String := []
  v : List String := []
  d : List (String × String) := []
  f : List (String × String) := []
  f_labels : List (String × String) := []
  e : List (List String) := []
  e_labels : List (List String × String) := []
  deriving DecidableEq, Repr

/-- Association-list lookup, first hit wins (embeds Python dict lookup,
given that insertion prepends). -/
def lookupTbl {α : Type} : List (String × α) → String → Option α
  | [], _ => none
  | (k, val) :: rest, key => if key = k then some val else lookupTbl rest key

/-- The frame stack is a list of frames with the ACTIVE frame at the
head (Python keeps it at the end; `reversed(self)` in the source is
therefore plain head-to-tail order here, and `for fr in self` is
`fs.reverse`). -/
abbrev FrameStack := List Frame

/-- `FrameStack.add_c`: add a constant to the active frame; error if it
is already a constant or a variable of that frame. -/
def add_c (tok : String) : FrameStack → Except PyError FrameStack
  | [] => .error .indexError
  | fr :: rest =>
    if tok ∈ fr.c then .error (.mm "const already defined in scope")
    else if tok ∈ fr.v then .error (.mm "const already defined as var in scope")
    else .ok ({ fr with c := tok :: fr.c } :: rest)

/-- `FrameStack.add_v`: add a variable to the active frame. -/
def add_v (tok : String) : FrameStack → Except PyError FrameStack
  | [] => .error .indexError
  | fr :: rest =>
    if tok ∈ fr.v then .error (.mm "var already defined in scope")
    else if tok ∈ fr.c then .error (.mm "var already defined as const in scope")
    else .ok ({ fr with v := tok :: fr.v } :: rest)

/-- `FrameStack.lookup_c`: walk all frames. -/
def lookup_c (tok : String) (fs : FrameStack) : Bool :=
  fs.any (fun fr => tok ∈ fr.c)

/-- `FrameStack.lookup_v`: walk all frames. -/
def lookup_v (tok : String) (fs : FrameStack) : Bool :=
  fs.any (fun fr => tok ∈ fr.v)

/-- `FrameStack.add_f`: add a floating hypothesis `label $f kind var $.`
to the active frame: `var` must be an active variable, `kind` an active
constant, and `var` must not already carry a floating hypothesis in the
active frame.  The hypothesis is appended (declaration order). -/
def add_f (var kind label : String) (fs : FrameStack) : Except PyError FrameStack :=
  if ¬ lookup_v var fs then .error (.mm "var in $f not defined")
  else if ¬ lookup_c kind fs then .error (.mm "const in $f not defined")
  else
    match fs with
    | [] => .error .indexError
    | fr :: rest =>
      if (lookupTbl fr.f_labels var).isSome then
        .error (.mm "var in $f already defined in scope")
      else
        .ok ({ fr with f := fr.f ++ [(var, kind)],
                       f_labels := (var, label) :: fr.f_labels } :: rest)

/-- `FrameStack.add_e`: append an essential hypothesis to the active
frame and index it by its statement. -/
def add_e (stat : List String) (label : String) : FrameStack → Except PyError FrameStack
  | [] => .error .indexError
  | fr :: rest =>
    .ok ({ fr with e := fr.e ++ [stat],
                   e_labels := (stat, label) :: fr.e_labels } :: rest)

/-- Lexicographic comparison of character lists by code point: Python's
string `<`. -/
def lexLt : List Char → List Char → Bool
  | [], [] => false
  | [], _ :: _ => true
  | _ :: _, [] => false
  | a :: as, b :: bs => if a < b then true else if b < a then false else lexLt as bs

/-- Python `x < y` on tokens. -/
def tokLt (x y : String) : Bool := lexLt x.data y.data

/-- Python `min(x, y)` on tokens (returns the first argument on
ties). -/
def tokMin (x y : String) : String := if tokLt y x then y else x

/-- Python `max(x, y)` on tokens. -/
def tokMax (x y : String) : String := if tokLt y x then x else y

/-- All unordered pairs declared by one `$d` statement, canonicalised:
`itertools.product(stat, stat)` filtered by `x != y`, each pair stored
as `(min, max)` in lexicographic token order. -/
def dPairs (stat : List String) : List (String × String) :=
  ((stat.flatMap (fun x => stat.map (fun y => (x, y)))).filter
      (fun p => p.1 ≠ p.2)).map (fun p => (tokMin p.1 p.2, tokMax p.1 p.2))

/-- `FrameStack.add_d`: union the canonical pairs of a `$d` statement
into the active frame's disjoint set.  Note: no check that the tokens
are declared variables (or declared at all). -/
def add_d (stat : List String) : FrameStack → Except PyError FrameStack
  | [] => .error .indexError
  | fr :: rest => .ok ({ fr with d := fr.d ++ dPairs stat } :: rest)

/-- `FrameStack.lookup_d`: canonicalise the query pair and search every
frame's disjoint set. -/
def lookup_d (x y : String) (fs : FrameStack) : Bool :=
  fs.any (fun fr => (tokMin x y, tokMax x y) ∈ fr.d)

/-- `FrameStack.lookup_f`: label of the floating hypothesis of `var`,
nearest scope first; `MMKeyError` when absent. -/
def lookup_f : FrameStack → String → Except PyError String
  | [], var => .error (.mmKey var)
  | fr :: rest, var =>
    match lookupTbl fr.f_labels var with
    | some l => .ok l
    | none => lookup_f rest var

/-- Association-list lookup keyed by a whole statement. -/
def lookupStmtTbl : List (List String × String) → List String → Option String
  | [], _ => none
  | (k, val) :: rest, key => if key = k then some val else lookupStmtTbl rest key

/-- `FrameStack.lookup_e`: label of an essential hypothesis, nearest
scope first; `MMKeyError` when absent (the source raises with the tuple;
we record the first token of the statement, or empty). -/
def lookup_e : FrameStack → List String → Except PyError String
  | [], stmt => .error (.mmKey (String.join stmt))
  | fr :: rest, stmt =>
    match lookupStmtTbl fr.e_labels stmt with
    | some l => .ok l
    | none => lookup_e rest stmt

/-- Assertion frame: the 4-tuple `(dvs, f_hyps, e_hyps, stat)` produced
by `make_assertion`.  `f_hyps` entries are `(kind, var)`. -/
structure Assertion where
  dvs : List (String × String)
  f_hyps : List (String × String)
  e_hyps : List (List String)
  concl : List String
  deriving DecidableEq, Repr

/-- Inner loop of `make_assertion`: walk one frame's floating-hypothesis
list in reverse; a pair whose variable is still in `mv` is prepended to
the accumulating deque and its variable removed from `mv`. -/
def collectFrame : List (String × String) → List String → List (String × String) →
    List (String × String) × List String
  | [], mv, acc => (acc, mv)
  | (v, k) :: rest, mv, acc =>
    if v ∈ mv then collectFrame rest (mv.erase v) ((k, v) :: acc)
    else collectFrame rest mv acc

/-- Outer loop of `make_assertion`: frames innermost to outermost
(head-to-tail here), each frame's floating list reversed. -/
def collectF : FrameStack → List String → List (String × String) →
    List (String × String) × List String
  | [], mv, acc => (acc, mv)
  | fr :: rest, mv, acc =>
    let p := collectFrame fr.f.reverse mv acc
    collectF rest p.2 p.1

/-- All essential hypotheses in all frames, outermost first
(`[eh for fr in self for eh in fr.e]`). -/
def eHypsOf (fs : FrameStack) : List (List String) :=
  fs.reverse.flatMap (fun fr => fr.e)

/-- The set of mandatory variables: tokens of the essential hypotheses
or of the conclusion that are active variables (a Python set; embedded
as a deduplicated list). -/
def mandVars (fs : FrameStack) (stat : List String) : List String :=
  (((eHypsOf fs ++ [stat]).flatMap id).filter (fun tok => lookup_v tok fs)).dedup

/-- `FrameStack.make_assertion` (pure core; the source also binds the
unused `frame = self[-1]`, whose empty-stack indexing is guarded in
`make_assertion` below). -/
def make_assertion_core (fs : FrameStack) (stat : List String) : Assertion :=
  let e_hyps := eHypsOf fs
  let mand_vars := mandVars fs stat
  let dvs := (fs.flatMap (fun fr => fr.d)).filter
      (fun p => p.1 ∈ mand_vars ∧ p.2 ∈ mand_vars)
  let f_hyps := (collectF fs mand_vars []).1
  ⟨dvs, f_hyps, e_hyps, stat⟩

/-- `FrameStack.make_assertion`: the source's first statement
`frame = self[-1]` raises `IndexError` on an empty stack. -/
def make_assertion (fs : FrameStack) (stat : List String) : Except PyError Assertion :=
  match fs with
  | [] => .error .indexError
  | _ :: _ => .ok (make_assertion_core fs stat)

/-- Payload of a label-table entry: `('$f', [kind, var])`,
`('$e', stat)`, `('$a', assertion)`, `('$p', assertion)`. -/
inductive LabelData where
  | f (kind var : String)
  | e (stat : List String)
  | a (asr : Assertion)
  | p (asr : Assertion)
  deriving DecidableEq, Repr

/-- The global label table `self.labels`.  A Python dict; embedded as an
association list where insertion prepends, so `lookupTbl` (first hit)
yields the most recent assignment, as dict assignment does. -/
abbrev Labels := List (String × LabelData)

/-- `MM.apply_subst`: each token with an entry in the substitution map
is spliced, every other token is copied. -/
def apply_subst (stat : List String) (subst : List (String × List String)) : List String :=
  stat.flatMap (fun tok =>
    match lookupTbl subst tok with
    | some repl => repl
    | none => [tok])

/-- `MM.find_vars`: variables of a statement in order of first
occurrence, deduplicated. -/
def find_vars (stat : List String) (fs : FrameStack) : List String :=
  stat.foldl (fun vars x =>
    if x ∉ vars ∧ lookup_v x fs then vars ++ [x] else vars) []

/-- One decoded integer of a compressed proof: the source uses `-1` as
the `Z` sentinel and otherwise emits `cur_int - 1 ≥ 0`; the two cases
are embedded as constructors. -/
inductive CInt where
  | mark
  | val (n : Nat)
  deriving DecidableEq, Repr

/-- Integer decoding of the compressed-proof letter string
(`for ch in compressed_proof` loop).  `Z` emits the sentinel without
resetting the accumulator; `A`..`T` are low digits (base 20, emit);
`U`..`Y` are high digits (base 5, accumulate); any other character is
silently skipped (the source has no `else` branch). -/
def decodeInts : List Char → Nat → List CInt
  | [], _ => []
  | ch :: rest, cur =>
    if ch = 'Z' then .mark :: decodeInts rest cur
    else if 'A' ≤ ch ∧ ch ≤ 'T' then
      .val (20 * cur + (ch.toNat - 'A'.toNat + 1) - 1) :: decodeInts rest 0
    else if 'U' ≤ ch ∧ ch ≤ 'Y' then
      decodeInts rest (5 * cur + (ch.toNat - 'U'.toNat + 1))
    else decodeInts rest cur

/-- Expansion loop of `decompress_proof`.  `prevRev` is the
`prev_proofs` stack with its Python END (most recent) at the HEAD;
`subproofs` is kept in Python order (append at the end, indexed from the
front); `acc` is `decompressed_ints` in order.  Python's negative-slice
behaviour `prev_proofs[-n:]` / `prev_proofs[:-n]` is `take n` / `drop n`
on the reversed representation and, like the source, silently takes
everything when fewer than `n` entries exist. -/
def expandLoop (labelsList : List String) (labels : Labels) (hypEnd labelEnd : Nat) :
    List CInt → List (List Nat) → List (List Nat) → List Nat →
    Except PyError (List Nat)
  | [], _, _, acc => .ok acc
  | .mark :: rest, subproofs, prevRev, acc =>
    match prevRev with
    | [] => .error .indexError
    | p :: _ => expandLoop labelsList labels hypEnd labelEnd rest (subproofs ++ [p]) prevRev acc
  | .val n :: rest, subproofs, prevRev, acc =>
    if n < hypEnd then
      expandLoop labelsList labels hypEnd labelEnd rest subproofs ([n] :: prevRev) (acc ++ [n])
    else if n < labelEnd then
      match labelsList.get? n with
      | none => .error .indexError
      | some lbl =>
        match lookupTbl labels lbl with
        | none => .error .keyError
        | some (.a asr) | some (.p asr) =>
          let nshyps := asr.f_hyps.length + asr.e_hyps.length
          if nshyps ≠ 0 then
            let newPrev := ((prevRev.take nshyps).reverse.flatMap id) ++ [n]
            expandLoop labelsList labels hypEnd labelEnd rest subproofs
              (newPrev :: prevRev.drop nshyps) (acc ++ [n])
          else
            expandLoop labelsList labels hypEnd labelEnd rest subproofs
              ([n] :: prevRev) (acc ++ [n])
        | some _ =>
          expandLoop labelsList labels hypEnd labelEnd rest subproofs
            ([n] :: prevRev) (acc ++ [n])
    else
      match subproofs.get? (n - labelEnd) with
      | none => .error .indexError
      | some p =>
        expandLoop labelsList labels hypEnd labelEnd rest subproofs (p :: prevRev) (acc ++ p)

/-- `MM.decompress_proof`.  The label list of the compressed proof is
the labels of the mandatory floating hypotheses, then of the essential
hypotheses, then the labels written between `(` and `)`; `proof.index(
closing parenthesis )` raises `ValueError` when absent; the trailing
tokens are joined into the letter string. -/
def decompress_proof (fs : FrameStack) (labels : Labels) (stat proof : List String) :
    Except PyError (List String) :=
  match make_assertion fs stat with
  | .error err => .error err
  | .ok asr =>
    match asr.f_hyps.mapM (fun kv => lookup_f fs kv.2) with
    | .error err => .error err
    | .ok mandHyps =>
      match asr.e_hyps.mapM (fun s => lookup_e fs s) with
      | .error err => .error err
      | .ok hyps =>
        match proof.findIdx? (fun t => t = ")") with
        | none => .error .valueError
        | some ep =>
          let labelsList := mandHyps ++ hyps ++ ((proof.drop 1).take (ep - 1))
          let hypEnd := mandHyps.length + hyps.length
          let compressed := String.join (proof.drop (ep + 1))
          let ints := decodeInts compressed.toList 0
          let labelEnd := labelsList.length
          match expandLoop labelsList labels hypEnd labelEnd ints [] [] [] with
          | .error err => .error err
          | .ok ds =>
            ds.mapM (fun i =>
              match labelsList.get? i with
              | none => .error .indexError
              | some l => .ok l)

/-- Build the substitution from the mandatory-hypothesis pattern
`(kind, var)` list and the matching stack entries (bottom-most first):
`entry[0]` must equal the kind (on an empty entry the indexing itself
raises `IndexError`), and the variable maps to the tail of the entry. -/
def buildSubst : List (String × String) → List (List String) →
    List (String × List String) → Except PyError (List (String × List String))
  | [], _, subst => .ok subst
  | _ :: _, [], _ => .error .indexError
  | (k, v) :: kvs, entry :: es, subst =>
    match entry with
    | [] => .error .indexError
    | t :: ts =>
      if t ≠ k then .error (.mm "stack entry doesn't match mandatory var hyp")
      else buildSubst kvs es ((v, ts) :: subst)

/-- Disjointness check for one `dv` pair after substitution: every
variable of the substituted `x` must differ from and be declared
disjoint with every variable of the substituted `y`. -/
def checkDisjointPair (fs : FrameStack) (xv yv : List String) : Bool :=
  (xv.flatMap (fun u => yv.map (fun w => (u, w)))).all
    (fun p => p.1 ≠ p.2 ∧ lookup_d p.1 p.2 fs)

/-- `for x, y in distinct` loop of `MM.prove`: the substitutions of both
pair members are fetched (`KeyError` when a member has no substitution),
their variables computed, and every cross pair checked. -/
def checkDisjoint (fs : FrameStack) (subst : List (String × List String)) :
    List (String × String) → Except PyError Unit
  | [] => .ok ()
  | (x, y) :: rest =>
    match lookupTbl subst x with
    | none => .error .keyError
    | some sx =>
      match lookupTbl subst y with
      | none => .error .keyError
      | some sy =>
        if checkDisjointPair fs (find_vars sx fs) (find_vars sy fs) then
          checkDisjoint fs subst rest
        else .error (.mm "disjoint violation")

/-- `for h in hyp` loop of `MM.prove`: each essential hypothesis,
substituted, must equal the corresponding stack entry. -/
def checkHyps (subst : List (String × List String)) :
    List (List String) → List (List String) → Except PyError Unit
  | [], _ => .ok ()
  | _ :: _, [] => .error .indexError
  | h :: hs, entry :: es =>
    if entry ≠ apply_subst h subst then
      .error (.mm "stack entry doesn't match hypothesis")
    else checkHyps subst hs es

/-- One `$a`/`$p` step of the proof checker on the expression stack
(HEAD of the list is the TOP of the Python stack): underflow check,
substitution construction, disjointness check, essential-hypothesis
check, then the `npop` inputs are popped and the substituted conclusion
pushed.  `inputs` is the popped segment bottom-most first, i.e. Python's
`stack[sp:]`. -/
def stepAssertion (fs : FrameStack) (asr : Assertion) (stack : List (List String)) :
    Except PyError (List (List String)) :=
  let npop := asr.f_hyps.length + asr.e_hyps.length
  if stack.length < npop then .error (.mm "stack underflow")
  else
    let inputs := (stack.take npop).reverse
    match buildSubst asr.f_hyps (inputs.take asr.f_hyps.length) [] with
    | .error err => .error err
    | .ok subst =>
      match checkDisjoint fs subst asr.dvs with
      | .error err => .error err
      | .ok _ =>
        match checkHyps subst asr.e_hyps (inputs.drop asr.f_hyps.length) with
        | .error err => .error err
        | .ok _ => .ok (apply_subst asr.concl subst :: stack.drop npop)

/-- Label-by-label loop of `MM.prove`.  A label absent from the table
raises `KeyError` (Python dict indexing); `$f`/`$e` push their payload
expression; `$a`/`$p` transform the stack. -/
def proveLoop (fs : FrameStack) (labels : Labels) :
    List String → List (List String) → Except PyError (List (List String))
  | [], stack => .ok stack
  | lbl :: rest, stack =>
    match lookupTbl labels lbl with
    | none => .error .keyError
    | some (.f kind var) => proveLoop fs labels rest ([kind, var] :: stack)
    | some (.e stat) => proveLoop fs labels rest (stat :: stack)
    | some (.a asr) | some (.p asr) =>
      match stepAssertion fs asr stack with
      | .error err => .error err
      | .ok stack2 => proveLoop fs labels rest stack2

/-- First statement of `MM.prove`: `proof[0]` raises `IndexError` on an
empty proof; a proof starting with `(` is decompressed. -/
def proofSteps (fs : FrameStack) (labels : Labels) (stat proof : List String) :
    Except PyError (List String) :=
  match proof with
  | [] => .error .indexError
  | t :: _ => if t = "(" then decompress_proof fs labels stat proof else .ok proof

/-- `MM.prove`: run the steps on an empty stack; at the end the stack
must hold exactly one expression, which is returned. -/
def prove (fs : FrameStack) (labels : Labels) (statLabel : String)
    (stat proof : List String) : Except PyError (List String) :=
  match proofSteps fs labels stat proof with
  | .error err => .error err
  | .ok steps =>
    match proveLoop fs labels steps [] with
    | .error err => .error err
    | .ok stack =>
      match stack with
      | [e0] => .ok e0
      | _ => .error (.mm "stack has >1 entry at end")

/-- `MM.verify`: the derived expression must equal the stated
conclusion. -/
def verify (fs : FrameStack) (labels : Labels) (statLabel : String)
    (stat proof : List String) : Except PyError Unit :=
  match prove fs labels statLabel stat proof with
  | .error err => .error err
  | .ok result =>
    if result ≠ stat then .error (.mm "assertion proved doesn't match")
    else .ok ()

/-- Token reader with comment skipping (`toks.readc` over an in-memory
token list; file inclusion is not exercised, the modelled streams
contain no inclusion command).  Outside a comment, the token `$(` opens
a comment; inside one, every token up to and including `$)` is
discarded (comments do not nest: the source's inner loop looks only for
the closing token). -/
def readcAux : List String → Bool → Option (String × List String)
  | [], _ => none
  | t :: rest, inComment =>
    if inComment then
      if t = "$)" then readcAux rest false else readcAux rest true
    else if t = "$(" then readcAux rest true
    else some (t, rest)

/-- `toks.readc`: next token outside comments, with the rest of the
stream, or `none` at end of stream. -/
def readc (toks : List String) : Option (String × List String) :=
  readcAux toks false

/-- Fuelled body of `toks.readstat`: collect tokens up to the `$.`
terminator; end of stream first raises `MMError`. -/
def readstatA : Nat → List String → Except PyError (List String × List String)
  | 0, _ => .error .noFuel
  | fuel + 1, toks =>
    match readc toks with
    | none => .error (.mm "EOF before end of statement")
    | some (t, rest) =>
      if t = "$." then .ok ([], rest)
      else
        match readstatA fuel rest with
        | .error err => .error err
        | .ok (stat, rest2) => .ok (t :: stat, rest2)

/-- `toks.readstat`: each recursive step consumes at least one token,
so fuel `length + 1` never runs out. -/
def readstat (toks : List String) : Except PyError (List String × List String) :=
  readstatA (toks.length + 1) toks

/-- A fresh frame, pushed on entering `read` and on `${`. -/
def emptyFrame : Frame := {}

/-- `tok[0] == $`: first-character test of the driver's dispatch
(tokens produced by whitespace splitting are never empty, so the
`IndexError` of `tok[0]` on an empty string cannot occur). -/
def startsDollar (tok : String) : Bool :=
  match tok.data with
  | [] => false
  | c :: _ => c = '$'

/-- `for tok in toks.readstat(): self.fs.add_c(tok)`. -/
def addAllC : List String → FrameStack → Except PyError FrameStack
  | [], fs => .ok fs
  | t :: rest, fs =>
    match add_c t fs with
    | .error err => .error err
    | .ok fs2 => addAllC rest fs2

/-- `for tok in toks.readstat(): self.fs.add_v(tok)`. -/
def addAllV : List String → FrameStack → Except PyError FrameStack
  | [], fs => .ok fs
  | t :: rest, fs =>
    match add_v t fs with
    | .error err => .error err
    | .ok fs2 => addAllV rest fs2

/-- Loop body of `MM.read`, fuelled by the iteration count (each
iteration consumes at least one token, so the fuel supplied by `read`
never runs out).  Dispatch follows the source: `$c`, `$v`, `$f`, `$a`,
`$e`, `$p`, `$d`, `${`, `$}`/end-of-stream (pop the active frame and
return), a non-`$` token becomes the pending label, and ANY OTHER
`$`-token is merely printed as a diagnostic and skipped — the driver
continues with state and pending label unchanged. -/
def readLoop (vflag : Bool) : Nat → List String → FrameStack → Labels → Option String →
    Except PyError (List String × FrameStack × Labels)
  | 0, _, _, _, _ => .error .noFuel
  | fuel + 1, toks, fs, labels, pending =>
    match readc toks with
    | none =>
      match fs with
      | [] => .error .indexError
      | _ :: fsrest => .ok ([], fsrest, labels)
    | some (tok, rest) =>
      if tok = "$\x7d" then
        match fs with
        | [] => .error .indexError
        | _ :: fsrest => .ok (rest, fsrest, labels)
      else if tok = "$c" then
        match readstat rest with
        | .error err => .error err
        | .ok (stat, rest2) =>
          match addAllC stat fs with
          | .error err => .error err
          | .ok fs2 => readLoop vflag fuel rest2 fs2 labels pending
      else if tok = "$v" then
        match readstat rest with
        | .error err => .error err
        | .ok (stat, rest2) =>
          match addAllV stat fs with
          | .error err => .error err
          | .ok fs2 => readLoop vflag fuel rest2 fs2 labels pending
      else if tok = "$f" then
        match readstat rest with
        | .error err => .error err
        | .ok (stat, rest2) =>
          match pending with
          | none => .error (.mm "$f must have label")
          | some lbl =>
            match stat with
            | [k, v] =>
              match add_f v k lbl fs with
              | .error err => .error err
              | .ok fs2 => readLoop vflag fuel rest2 fs2 ((lbl, .f k v) :: labels) none
            | _ => .error (.mm "$f must have be length 2")
      else if tok = "$a" then
        match pending with
        | none => .error (.mm "$a must have label")
        | some lbl =>
          match readstat rest with
          | .error err => .error err
          | .ok (stat, rest2) =>
            match make_assertion fs stat with
            | .error err => .error err
            | .ok asr => readLoop vflag fuel rest2 fs ((lbl, .a asr) :: labels) none
      else if tok = "$e" then
        match pending with
        | none => .error (.mm "$e must have label")
        | some lbl =>
          match readstat rest with
          | .error err => .error err
          | .ok (stat, rest2) =>
            match add_e stat lbl fs with
            | .error err => .error err
            | .ok fs2 => readLoop vflag fuel rest2 fs2 ((lbl, .e stat) :: labels) none
      else if tok = "$p" then
        match pending with
        | none => .error (.mm "$p must have label")
        | some lbl =>
          match readstat rest with
          | .error err => .error err
          | .ok (stat, rest2) =>
            match stat.findIdx? (fun t => t = "$=") with
            | none => .error (.mm "$p must contain proof after $=")
            | some i =>
              match (if vflag then verify fs labels lbl (stat.take i) (stat.drop (i + 1)) else .ok ()) with
              | .error err => .error err
              | .ok _ =>
                match make_assertion fs (stat.take i) with
                | .error err => .error err
                | .ok asr => readLoop vflag fuel rest2 fs ((lbl, .p asr) :: labels) none
      else if tok = "$d" then
        match readstat rest with
        | .error err => .error err
        | .ok (stat, rest2) =>
          match add_d stat fs with
          | .error err => .error err
          | .ok fs2 => readLoop vflag fuel rest2 fs2 labels pending
      else if tok = "$\x7b" then
        match readLoop vflag fuel rest (emptyFrame :: fs) labels none with
        | .error err => .error err
        | .ok (rest2, fs2, labels2) => readLoop vflag fuel rest2 fs2 labels2 pending
      else if startsDollar tok then
        readLoop vflag fuel rest fs labels pending
      else
        readLoop vflag fuel rest fs labels (some tok)

/-- `MM.read`: push a frame and run the loop; the fuel exceeds the
token count, so it is never exhausted on a run the source completes. -/
def read (vflag : Bool) (toks : List String) (fs : FrameStack) (labels : Labels) :
    Except PyError (List String × FrameStack × Labels) :=
  readLoop vflag (toks.length + 2) toks (emptyFrame :: fs) labels none

/-! ## Specification-side description of the mandatory-hypothesis walk

The following two definitions follow the SPEC'S WORDS for `mand_hyps`
("walk frames innermost to outermost; within each frame, walk its
floating-hypothesis list in reverse; for each `(var, kind)` with
`var ∈ mand_vars` and not already emitted, emit `(kind, var)` by
prepending"), tracking the set of already-emitted variables explicitly.
They are compared with the source-derived `collectF` walk, which instead
deletes emitted variables from its working set. -/

/-- Spec walk, one frame (the floating list is passed already
reversed). -/
def specWalkFrame : List (String × String) → List String → List String →
    List (String × String) → List (String × String) × List String
  | [], _, emitted, acc => (acc, emitted)
  | (v, k) :: rest, mand, emitted, acc =>
    if v ∈ mand ∧ v ∉ emitted then
      specWalkFrame rest mand (v :: emitted) ((k, v) :: acc)
    else specWalkFrame rest mand emitted acc

/-- Spec walk over the frame stack, innermost (head) to outermost. -/
def specWalk : List Frame → List String → List String →
    List (String × String) → List (String × String) × List String
  | [], _, emitted, acc => (acc, emitted)
  | fr :: rest, mand, emitted, acc =>
    let p := specWalkFrame fr.f.reverse mand emitted acc
    specWalk rest mand p.2 p.1

/-- The spec's `mand_hyps` sequence for a given set of mandatory
variables. -/
def specMandHyps (fs : FrameStack) (mand : List String) : List (String × String) :=
  (specWalk fs mand [] []).1

/-! ## State-threaded proof checker

The checker functions below thread the session state (`self.fs` and
`self.labels`) explicitly through every step, mirroring the source
statement by statement: the state a step hands to the next step is the
state it received, because `MM.prove` and `MM.decompress_proof` contain
no assignment to `self.fs` or `self.labels`.  The frame-effect theorem
states that the final state equals the initial one. -/

/-- The session state owned by the `MM` object. -/
structure MMState where
  fs : FrameStack
  labels : Labels
  deriving DecidableEq, Repr

/-- State-threaded expansion loop of `decompress_proof` (each step reads
the label table of the state it carries). -/
def expandLoopS (mm : MMState) (labelsList : List String) (hypEnd labelEnd : Nat) :
    List CInt → List (List Nat) → List (List Nat) → List Nat →
    Except PyError (List Nat × MMState)
  | [], _, _, acc => .ok (acc, mm)
  | .mark :: rest, subproofs, prevRev, acc =>
    match prevRev with
    | [] => .error .indexError
    | p :: _ => expandLoopS mm labelsList hypEnd labelEnd rest (subproofs ++ [p]) prevRev acc
  | .val n :: rest, subproofs, prevRev, acc =>
    if n < hypEnd then
      expandLoopS mm labelsList hypEnd labelEnd rest subproofs ([n] :: prevRev) (acc ++ [n])
    else if n < labelEnd then
      match labelsList.get? n with
      | none => .error .indexError
      | some lbl =>
        match lookupTbl mm.labels lbl with
        | none => .error .keyError
        | some (.a asr) | some (.p asr) =>
          let nshyps := asr.f_hyps.length + asr.e_hyps.length
          if nshyps ≠ 0 then
            let newPrev := ((prevRev.take nshyps).reverse.flatMap id) ++ [n]
            expandLoopS mm labelsList hypEnd labelEnd rest subproofs
              (newPrev :: prevRev.drop nshyps) (acc ++ [n])
          else
            expandLoopS mm labelsList hypEnd labelEnd rest subproofs
              ([n] :: prevRev) (acc ++ [n])
        | some _ =>
          expandLoopS mm labelsList hypEnd labelEnd rest subproofs
            ([n] :: prevRev) (acc ++ [n])
    else
      match subproofs.get? (n - labelEnd) with
      | none => .error .indexError
      | some p =>
        expandLoopS mm labelsList hypEnd labelEnd rest subproofs (p :: prevRev) (acc ++ p)

/-- State-threaded `MM.decompress_proof`. -/
def decompress_proofS (mm : MMState) (stat proof : List String) :
    Except PyError (List String × MMState) :=
  match make_assertion mm.fs stat with
  | .error err => .error err
  | .ok asr =>
    match asr.f_hyps.mapM (fun kv => lookup_f mm.fs kv.2) with
    | .error err => .error err
    | .ok mandHyps =>
      match asr.e_hyps.mapM (fun s => lookup_e mm.fs s) with
      | .error err => .error err
      | .ok hyps =>
        match proof.findIdx? (fun t => t = ")") with
        | none => .error .valueError
        | some ep =>
          let labelsList := mandHyps ++ hyps ++ ((proof.drop 1).take (ep - 1))
          let hypEnd := mandHyps.length + hyps.length
          let compressed := String.join (proof.drop (ep + 1))
          let ints := decodeInts compressed.toList 0
          let labelEnd := labelsList.length
          match expandLoopS mm labelsList hypEnd labelEnd ints [] [] [] with
          | .error err => .error err
          | .ok (ds, mm2) =>
            match (ds.mapM (fun i =>
                match labelsList.get? i with
                | none => .error .indexError
                | some l => .ok l) : Except PyError (List String)) with
            | .error err => .error err
            | .ok out => .ok (out, mm2)

/-- State-threaded proof-step loop of `MM.prove`. -/
def proveLoopS (mm : MMState) : List String → List (List String) →
    Except PyError (List (List String) × MMState)
  | [], stack => .ok (stack, mm)
  | lbl :: rest, stack =>
    match lookupTbl mm.labels lbl with
    | none => .error .keyError
    | some (.f kind var) => proveLoopS mm rest ([kind, var] :: stack)
    | some (.e stat) => proveLoopS mm rest (stat :: stack)
    | some (.a asr) | some (.p asr) =>
      match stepAssertion mm.fs asr stack with
      | .error err => .error err
      | .ok stack2 => proveLoopS mm rest stack2

/-- State-threaded first statement of `MM.prove`. -/
def proofStepsS (mm : MMState) (stat proof : List String) :
    Except PyError (List String × MMState) :=
  match proof with
  | [] => .error .indexError
  | t :: _ => if t = "(" then decompress_proofS mm stat proof else .ok (proof, mm)

/-- State-threaded `MM.prove`. -/
def proveS (mm : MMState) (statLabel : String) (stat proof : List String) :
    Except PyError (List String × MMState) :=
  match proofStepsS mm stat proof with
  | .error err => .error err
  | .ok (steps, mm1) =>
    match proveLoopS mm1 steps [] with
    | .error err => .error err
    | .ok (stack, mm2) =>
      match stack with
      | [e0] => .ok (e0, mm2)
      | _ => .error (.mm "stack has >1 entry at end")

/-! ## Concrete fixtures

The state reached by the S1 database of the spec right before its `$p`
statement is spelled out literally (root frame after the `$c`, `$v`,
two `$f` and one `$a` declarations; `add_c`/`add_v` cons onto the
constant/variable lists, `add_f` appends to `f` and conses the label
index, the label table conses). -/

/-- Root frame of the S1 database before `wnew`. -/
def s1frame : Frame :=
  { c := ["wff", "->", ")", "("],
    v := ["q", "p"],
    d := [],
    f := [("p", "wff"), ("q", "wff")],
    f_labels := [("q", "wq"), ("p", "wp")],
    e := [],
    e_labels := [] }

/-- S1 frame stack before `wnew`. -/
def fs1 : FrameStack := [s1frame]

/-- The assertion frame of `w2`. -/
def asr2 : Assertion :=
  ⟨[], [("wff", "p"), ("wff", "q")], [], ["wff", "(", "p", "->", "q", ")"]⟩

/-- S1 label table before `wnew`. -/
def labels1 : Labels :=
  [("w2", LabelData.a asr2), ("wq", LabelData.f "wff" "q"), ("wp", LabelData.f "wff" "p")]

/-- The conclusion of `wnew`. -/
def stat1 : List String := ["wff", "(", "p", "->", "q", ")"]

/-- Session state of the S1 database before `wnew`. -/
def mm1 : MMState := ⟨fs1, labels1⟩

/-- A stack with one empty frame (fresh session). -/
def fsX : FrameStack := [{}]

/-- A one-entry label table used by the decompression fixtures. -/
def lblX : Labels := [("lblA", LabelData.e ["wff"])]

deriving instance DecidableEq for Except

/-! ## Helper lemmas -/

/-- `lexLt` is asymmetric. -/
theorem lexLt_asymm : ∀ {a b : List Char}, lexLt a b = true → lexLt b a = false := by
  intro a
  induction a with
  | nil =>
    intro b h
    cases b with
    | nil => simp [lexLt] at h
    | cons c cs => simp [lexLt]
  | cons c cs ih =>
    intro b h
    cases b with
    | nil => simp [lexLt] at h
    | cons d ds =>
      simp only [lexLt] at h ⊢
      rcases lt_trichotomy c d with hcd | hcd | hcd
      · simp [hcd, not_lt_of_lt hcd]
      · subst hcd
        simp only [lt_irrefl, if_false] at h ⊢
        exact ih h
      · simp [hcd, not_lt_of_lt hcd] at h

/-- `lexLt` is total on distinct lists. -/
theorem lexLt_connex : ∀ {a b : List Char}, a ≠ b →
    lexLt a b = true ∨ lexLt b a = true := by
  intro a
  induction a with
  | nil =>
    intro b hne
    cases b with
    | nil => exact absurd rfl hne
    | cons c cs => left; simp [lexLt]
  | cons c cs ih =>
    intro b hne
    cases b with
    | nil => right; simp [lexLt]
    | cons d ds =>
      simp only [lexLt]
      rcases lt_trichotomy c d with hcd | hcd | hcd
      · left; simp [hcd]
      · subst hcd
        have hne2 : cs ≠ ds := fun h => hne (by rw [h])
        rcases ih hne2 with h | h
        · left; simp [lt_irrefl, h]
        · right; simp [lt_irrefl, h]
      · right; simp [hcd]

/-- Distinct tokens compare strictly one way. -/
theorem tokLt_of_ne {x y : String} (hne : x ≠ y) (hnot : tokLt y x = false) :
    tokLt x y = true := by
  have hd : x.data ≠ y.data := fun h => hne (by cases x; cases y; simp only at h; rw [h])
  rcases lexLt_connex hd with h | h
  · exact h
  · rw [tokLt] at hnot
    rw [hnot] at h
    cases h

/-- The canonical pair of two distinct tokens is strictly ordered. -/
theorem tokLt_tokMin_tokMax {x y : String} (hne : x ≠ y) :
    tokLt (tokMin x y) (tokMax x y) = true := by
  by_cases h : tokLt y x = true
  · simp [tokMin, tokMax, h]
  · have h2 : tokLt y x = false := by
      cases h3 : tokLt y x
      · rfl
      · exact absurd h3 h
    simp only [tokMin, tokMax, h2, Bool.false_eq_true, if_false]
    exact tokLt_of_ne hne h2

/-- `tokMin` is insensitive to argument order. -/
theorem tokMin_comm (x y : String) : tokMin x y = tokMin y x := by
  by_cases hne : x = y
  · subst hne; rfl
  · cases h : tokLt y x
    · have h2 := tokLt_of_ne hne h
      simp [tokMin, h, h2]
    · have h2 : tokLt x y = false := by
        unfold tokLt at h ⊢
        exact lexLt_asymm h
      simp [tokMin, h, h2]

/-- `tokMax` is insensitive to argument order. -/
theorem tokMax_comm (x y : String) : tokMax x y = tokMax y x := by
  by_cases hne : x = y
  · subst hne; rfl
  · cases h : tokLt y x
    · have h2 := tokLt_of_ne hne h
      simp [tokMax, h, h2]
    · have h2 : tokLt x y = false := by
        unfold tokLt at h ⊢
        exact lexLt_asymm h
      simp [tokMax, h, h2]

/-- Membership in the canonical pair list of a `$d` statement. -/
theorem mem_dPairs {stat : List String} {p : String × String} :
    p ∈ dPairs stat ↔
      ∃ x y, x ∈ stat ∧ y ∈ stat ∧ x ≠ y ∧ p = (tokMin x y, tokMax x y) := by
  constructor
  · intro hp
    simp only [dPairs, List.mem_map] at hp
    obtain ⟨q, hq, rfl⟩ := hp
    simp only [List.mem_filter, List.mem_flatMap, List.mem_map, decide_eq_true_eq] at hq
    obtain ⟨⟨x, hx, y, hy, rfl⟩, hne⟩ := hq
    exact ⟨x, y, hx, hy, hne, rfl⟩
  · rintro ⟨x, y, hx, hy, hne, rfl⟩
    simp only [dPairs, List.mem_map]
    refine ⟨(x, y), ?_, rfl⟩
    simp only [List.mem_filter, List.mem_flatMap, List.mem_map, decide_eq_true_eq]
    exact ⟨⟨x, hx, y, hy, rfl⟩, hne⟩

/-- `readc` on a stream whose next token is not a comment opener. -/
theorem readc_cons (t : String) (rest : List String) (h : t ≠ "$(") :
    readc (t :: rest) = some (t, rest) := by
  simp [readc, readcAux, h]

/-- `readstat` of a one-token statement. -/
theorem readstat_singleton (x : String) (rest : List String)
    (h1 : x ≠ "$.") (h2 : x ≠ "$(") :
    readstat (x :: "$." :: rest) = .ok ([x], rest) := by
  simp [readstat, readstatA, readc, readcAux, h1, h2]

/-- `readstat` of a two-token statement. -/
theorem readstat_pair (a b : String) (rest : List String)
    (ha1 : a ≠ "$.") (ha2 : a ≠ "$(") (hb1 : b ≠ "$.") (hb2 : b ≠ "$(") :
    readstat (a :: b :: "$." :: rest) = .ok ([a, b], rest) := by
  simp [readstat, readstatA, readc, readcAux, ha1, ha2, hb1, hb2]

/-! ## Claim theorems -/

/-- Claim C8: `apply_subst` is the identity under the empty substitution
map, and distributes over concatenation of expressions. -/
theorem apply_subst_id_hom :
    (∀ e : List String, apply_subst e [] = e) ∧
    (∀ (a b : List String) (s : List (String × List String)),
      apply_subst (a ++ b) s = apply_subst a s ++ apply_subst b s) := by
  constructor
  · intro e
    induction e with
    | nil => rfl
    | cons t ts ih =>
      simp only [apply_subst, List.flatMap_cons, lookupTbl] at ih ⊢
      rw [ih]
      rfl
  · intro a b s
    simp only [apply_subst, List.flatMap_append]

/-- Claim C6 (counterexample): on an empty proof the checker fails with
the `IndexError` of `proof[0]`, which is not the end-of-proof
stack-size `MMError`. -/
theorem prove_empty_counterexample :
    prove [] [] "z" ["wff"] [] = .error .indexError ∧
    PyError.indexError ≠ PyError.mm "stack has >1 entry at end" := by
  constructor
  · rfl
  · decide

/-- Claim C6 (amended): for every state, label and conclusion, checking
an empty proof fails with `IndexError` (raised by `proof[0]` before any
stack-size check), not with the stack-size `MMError`. -/
theorem prove_empty_proof_indexError :
    ∀ (fs : FrameStack) (labels : Labels) (lbl : String) (stat : List String),
      prove fs labels lbl stat [] = .error .indexError := by
  intro fs labels lbl stat
  rfl

/-- Claim C5 (counterexample): a stream with the unrecognized directive
`$q` is read to completion without any error (the claim says it must
fail with `UnknownDirective`). -/
theorem read_unknown_directive_counterexample :
    read true ["$q", "foo"] [] [] = .ok ([], [], []) := by
  decide

/-- Claim C5 (amended): a top-level `$`-token that is none of the
recognized directives is skipped (after a diagnostic print): the driver
continues on the remaining tokens with the frame stack, label table and
pending label unchanged. -/
theorem readLoop_skips_unknown_directive :
    ∀ (v : Bool) (fuel : Nat) (tok : String) (rest : List String)
      (fs : FrameStack) (labels : Labels) (pending : Option String),
      startsDollar tok = true →
      tok ≠ "$(" → tok ≠ "$\x7d" → tok ≠ "$c" → tok ≠ "$v" → tok ≠ "$f" →
      tok ≠ "$a" → tok ≠ "$e" → tok ≠ "$p" → tok ≠ "$d" → tok ≠ "$\x7b" →
      readLoop v (fuel + 1) (tok :: rest) fs labels pending =
        readLoop v fuel rest fs labels pending := by
  intro v fuel tok rest fs labels pending hpre h0 h1 h2 h3 h4 h5 h6 h7 h8 h9
  simp only [readLoop, readc, readcAux, if_neg h0, Bool.false_eq_true, if_false,
    if_neg h1, if_neg h2, if_neg h3, if_neg h4, if_neg h5, if_neg h6,
    if_neg h7, if_neg h8, if_neg h9, hpre, if_true]

/-- Claim C5 (witness). -/
theorem readLoop_skips_unknown_directive_witness :
    readLoop true 5 ["$q"] fsX [] none = readLoop true 4 [] fsX [] none := by
  exact readLoop_skips_unknown_directive true 4 "$q" [] fsX [] none
    (by decide) (by decide) (by decide) (by decide) (by decide) (by decide)
    (by decide) (by decide) (by decide) (by decide) (by decide)

/-- Claim C3 (counterexample): the driver accepts a second `$e`
declaration reusing the label `lab` without any error, and afterwards
the label resolves to the NEWER payload — the label table is not
write-once and no duplicate-label error exists. -/
theorem read_duplicate_label_counterexample :
    read true ["lab", "$e", "x", "$.", "lab", "$e", "y", "$."] [] [] =
      .ok ([], [], [("lab", LabelData.e ["y"]), ("lab", LabelData.e ["x"])]) ∧
    lookupTbl [("lab", LabelData.e ["y"]), ("lab", LabelData.e ["x"])] "lab" =
      some (LabelData.e ["y"]) := by
  constructor
  · decide
  · rfl

/-- Claim C3 (amended): declarations never check the label table: a
`$e` declaration with pending label `lbl` succeeds for EVERY prior
table, including one that already records `lbl`, and simply prepends
its entry, after which the table resolves `lbl` to the newest
payload. -/
theorem readLoop_label_overwrites :
    ∀ (v : Bool) (fuel : Nat) (x : String) (rest : List String) (fr : Frame)
      (fs : FrameStack) (labels : Labels) (lbl : String),
      x ≠ "$." → x ≠ "$(" →
      (readLoop v (fuel + 1) ("$e" :: x :: "$." :: rest) (fr :: fs) labels (some lbl) =
        readLoop v fuel rest
          ({ fr with e := fr.e ++ [[x]], e_labels := ([x], lbl) :: fr.e_labels } :: fs)
          ((lbl, LabelData.e [x]) :: labels) none) ∧
      lookupTbl ((lbl, LabelData.e [x]) :: labels) lbl = some (LabelData.e [x]) := by
  intro v fuel x rest fr fs labels lbl hx1 hx2
  constructor
  · have hrc : readc ("$e" :: x :: "$." :: rest) = some ("$e", x :: "$." :: rest) :=
      readc_cons _ _ (by decide)
    have hrs : readstat (x :: "$." :: rest) = .ok ([x], rest) :=
      readstat_singleton x rest hx1 hx2
    simp only [readLoop]
    simp [hrc, hrs, add_e]
  · simp [lookupTbl]

/-- Claim C3 (witness). -/
theorem readLoop_label_overwrites_witness :
    (readLoop true 2 ["$e", "x", "$.", "z", "$."] [emptyFrame] [("lab", LabelData.e ["x0"])] (some "lab") =
      readLoop true 1 ["z", "$."]
        ({ emptyFrame with e := emptyFrame.e ++ [["x"]], e_labels := (["x"], "lab") :: emptyFrame.e_labels } :: [])
        (("lab", LabelData.e ["x"]) :: [("lab", LabelData.e ["x0"])]) none) ∧
    lookupTbl (("lab", LabelData.e ["x"]) :: [("lab", LabelData.e ["x0"])]) "lab" =
      some (LabelData.e ["x"]) := by
  exact readLoop_label_overwrites true 1 "x" ["z", "$."] emptyFrame []
    [("lab", LabelData.e ["x0"])] "lab" (by decide) (by decide)

/-- Claim C7: every pair a reachable frame stores satisfies `x < y`
(canonical form is preserved by `add_d` from any stack already in
canonical form); `add_d` records the canonical `(min, max)` pair of
every two distinct tokens of the statement; and `lookup_d` is
symmetric in its two arguments. -/
theorem add_d_canonical :
    (∀ (stat : List String) (fs fs2 : FrameStack),
      add_d stat fs = .ok fs2 →
      (∀ fr ∈ fs, ∀ p ∈ fr.d, tokLt p.1 p.2 = true) →
      (∀ fr ∈ fs2, ∀ p ∈ fr.d, tokLt p.1 p.2 = true)) ∧
    (∀ (stat : List String) (fr : Frame) (fs : FrameStack) (x y : String),
      x ∈ stat → y ∈ stat → x ≠ y →
      lookup_d x y ({ fr with d := fr.d ++ dPairs stat } :: fs) = true) ∧
    (∀ (x y : String) (fs : FrameStack), lookup_d x y fs = lookup_d y x fs) := by
  refine ⟨?_, ?_, ?_⟩
  · intro stat fs fs2 hok hinv
    cases fs with
    | nil => cases hok
    | cons fr rest =>
      simp only [add_d, Except.ok.injEq] at hok
      subst hok
      intro fr2 hfr2 p hp
      rcases List.mem_cons.mp hfr2 with h | h
      · subst h
        simp only [List.mem_append] at hp
        rcases hp with h | h
        · exact hinv fr (List.mem_cons_self fr rest) p h
        · obtain ⟨a, b, _, _, hne, rfl⟩ := mem_dPairs.mp h
          exact tokLt_tokMin_tokMax hne
      · exact hinv fr2 (List.mem_cons_of_mem fr h) p hp
  · intro stat fr fs x y hx hy hne
    simp only [lookup_d, List.any_cons, Bool.or_eq_true, List.any_eq_true]
    left
    simp only [List.mem_append, decide_eq_true_eq]
    right
    exact mem_dPairs.mpr ⟨x, y, hx, hy, hne, rfl⟩
  · intro x y fs
    simp only [lookup_d, tokMin_comm x y, tokMax_comm x y]

/-- Claim C7 (witness). -/
theorem add_d_canonical_witness :
    (∀ fr ∈ [({ emptyFrame with d := emptyFrame.d ++ dPairs ["b", "a"] } : Frame)],
        ∀ p ∈ fr.d, tokLt p.1 p.2 = true) ∧
    lookup_d "b" "a" ({ emptyFrame with d := emptyFrame.d ++ dPairs ["b", "a"] } :: []) = true := by
  constructor
  · exact add_d_canonical.1 ["b", "a"] [emptyFrame]
      [{ emptyFrame with d := emptyFrame.d ++ dPairs ["b", "a"] }] (by decide)
      (by decide)
  · exact add_d_canonical.2.1 ["b", "a"] emptyFrame [] "b" "a" (by decide) (by decide)
      (by decide)

/-- Claim C10: `add_d` performs no validation of its tokens: on any
nonempty frame stack it succeeds for EVERY token list (no check that
the tokens are active variables, or declared at all), recording the
canonical pair of every two distinct tokens, and the driver's `$d`
branch applies it directly, likewise without validation. -/
theorem add_d_unvalidated :
    (∀ (stat : List String) (fr : Frame) (fs : FrameStack),
      add_d stat (fr :: fs) = .ok ({ fr with d := fr.d ++ dPairs stat } :: fs)) ∧
    (∀ (stat : List String) (fr : Frame) (fs : FrameStack) (x y : String),
      x ∈ stat → y ∈ stat → x ≠ y →
      (tokMin x y, tokMax x y) ∈ ({ fr with d := fr.d ++ dPairs stat } : Frame).d) ∧
    (∀ (v : Bool) (fuel : Nat) (a b : String) (rest : List String) (fr : Frame)
        (fs : FrameStack) (labels : Labels) (pending : Option String),
      a ≠ "$." → a ≠ "$(" → b ≠ "$." → b ≠ "$(" →
      readLoop v (fuel + 1) ("$d" :: a :: b :: "$." :: rest) (fr :: fs) labels pending =
        readLoop v fuel rest ({ fr with d := fr.d ++ dPairs [a, b] } :: fs) labels pending) := by
  refine ⟨?_, ?_, ?_⟩
  · intro stat fr fs
    rfl
  · intro stat fr fs x y hx hy hne
    simp only [List.mem_append]
    right
    exact mem_dPairs.mpr ⟨x, y, hx, hy, hne, rfl⟩
  · intro v fuel a b rest fr fs labels pending ha1 ha2 hb1 hb2
    have hrc : readc ("$d" :: a :: b :: "$." :: rest) = some ("$d", a :: b :: "$." :: rest) :=
      readc_cons _ _ (by decide)
    have hrs : readstat (a :: b :: "$." :: rest) = .ok ([a, b], rest) :=
      readstat_pair a b rest ha1 ha2 hb1 hb2
    simp only [readLoop]
    simp [hrc, hrs, add_d]

/-- Claim C10 (witness): `$d` over a declared CONSTANT and an entirely
undeclared token still succeeds and records their canonical pair. -/
theorem add_d_unvalidated_witness :
    (tokMin "wff" "zz", tokMax "wff" "zz") ∈
      ({ s1frame with d := s1frame.d ++ dPairs ["wff", "zz"] } : Frame).d ∧
    readLoop true 3 ["$d", "wff", "zz", "$."] [s1frame] labels1 none =
      readLoop true 2 [] ({ s1frame with d := s1frame.d ++ dPairs ["wff", "zz"] } :: [])
        labels1 none := by
  constructor
  · exact add_d_unvalidated.2.1 ["wff", "zz"] s1frame [] "wff" "zz" (by decide)
      (by decide) (by decide)
  · exact add_d_unvalidated.2.2 true 2 "wff" "zz" [] s1frame [] labels1 none
      (by decide) (by decide) (by decide) (by decide)

/-- Claim C4 (counterexample): a compressed proof whose letter string
contains the character `a` (outside `A`..`Z`) is decompressed WITHOUT
any error; a missing `)` raises the `ValueError` of `proof.index` and
an out-of-range back-reference the `IndexError` of list indexing —
builtin exceptions, not the verifier's `MMError`. -/
theorem decompress_malformed_counterexample :
    decompress_proof fsX lblX ["wff"] ["(", "lblA", ")", "aA"] = .ok ["lblA"] ∧
    decompress_proof fsX lblX ["wff"] ["(", "lblA", "A"] = .error .valueError ∧
    decompress_proof fsX lblX ["wff"] ["(", "lblA", ")", "B"] = .error .indexError := by
  refine ⟨by decide, by decide, by decide⟩

/-- Claim C4 (amended): characters outside `A`..`Z` in the letter
string are silently skipped by the integer decoder (no error); a
reference past the recorded subproofs fails with `IndexError`; a proof
with no `)` token fails with `ValueError` (both builtin exceptions, not
`MMError`). -/
theorem decompress_malformed_amended :
    (∀ (c : Char) (rest : List Char) (cur : Nat),
      ¬('A' ≤ c ∧ c ≤ 'Z') → decodeInts (c :: rest) cur = decodeInts rest cur) ∧
    (∀ (labelsList : List String) (labels : Labels) (hypEnd labelEnd n : Nat)
        (rest : List CInt) (subproofs prevRev : List (List Nat)) (acc : List Nat),
      hypEnd ≤ n → labelEnd ≤ n → subproofs.length ≤ n - labelEnd →
      expandLoop labelsList labels hypEnd labelEnd (CInt.val n :: rest) subproofs prevRev acc =
        .error .indexError) ∧
    (∀ (fr : Frame) (fs : FrameStack) (labels : Labels) (stat proof : List String)
        (mh hh : List String),
      (make_assertion_core (fr :: fs) stat).f_hyps.mapM
          (fun kv => lookup_f (fr :: fs) kv.2) = .ok mh →
      (make_assertion_core (fr :: fs) stat).e_hyps.mapM
          (fun s => lookup_e (fr :: fs) s) = .ok hh →
      proof.findIdx? (fun t => t = ")") = none →
      decompress_proof (fr :: fs) labels stat proof = .error .valueError) := by
  refine ⟨?_, ?_, ?_⟩
  · intro c rest cur hc
    have hz : ¬(c = 'Z') := by
      intro h
      exact hc (by subst h; exact ⟨by decide, by decide⟩)
    have hat : ¬('A' ≤ c ∧ c ≤ 'T') := by
      rintro ⟨h1, h2⟩
      exact hc ⟨h1, le_trans h2 (by decide)⟩
    have huy : ¬('U' ≤ c ∧ c ≤ 'Y') := by
      rintro ⟨h1, h2⟩
      exact hc ⟨le_trans (by decide) h1, le_trans h2 (by decide)⟩
    rw [decodeInts, if_neg hz, if_neg hat, if_neg huy]
  · intro labelsList labels hypEnd labelEnd n rest subproofs prevRev acc h1 h2 h3
    have hn1 : ¬(n < hypEnd) := not_lt_of_le h1
    have hn2 : ¬(n < labelEnd) := not_lt_of_le h2
    have hget : subproofs.get? (n - labelEnd) = none := List.get?_eq_none.mpr h3
    rw [expandLoop, if_neg hn1, if_neg hn2, hget]
  · intro fr fs labels stat proof mh hh hmh hhh hidx
    rw [decompress_proof, make_assertion]
    simp only [hmh, hhh, hidx]

/-- Claim C4 (witness). -/
theorem decompress_malformed_amended_witness :
    decodeInts ('a' :: ['A']) 0 = decodeInts ['A'] 0 ∧
    expandLoop ["lblA"] lblX 0 1 (CInt.val 1 :: []) [] [] [] = .error .indexError ∧
    decompress_proof ([{}] : FrameStack) lblX ["wff"] ["(", "lblA", "A"] =
      .error .valueError := by
  refine ⟨?_, ?_, ?_⟩
  · exact decompress_malformed_amended.1 'a' ['A'] 0 (by decide)
  · exact decompress_malformed_amended.2.1 ["lblA"] lblX 0 1 1 [] [] [] []
      (by decide) (by decide) (by decide)
  · exact decompress_malformed_amended.2.2 {} [] lblX ["wff"] ["(", "lblA", "A"]
      [] [] (by decide) (by decide) (by decide)

/-- Claim C1: a proof is accepted by `verify` exactly when the step
loop ends with the one-element stack `[stat]` (so the final stack holds
exactly one expression, token-for-token equal to the stated
conclusion); `prove` — which never compares against a conclusion —
returns the sole stack entry; a final stack of any other size makes
`prove` fail with the stack-size `MMError`; and a derived expression
differing from the stated conclusion makes `verify` fail with the
assertion-mismatch `MMError`. -/
theorem prove_verify_correct :
    ∀ (fs : FrameStack) (labels : Labels) (lbl : String) (stat proof : List String),
      (verify fs labels lbl stat proof = .ok () ↔
        ∃ steps, proofSteps fs labels stat proof = .ok steps ∧
          proveLoop fs labels steps [] = .ok [stat]) ∧
      (∀ e, prove fs labels lbl stat proof = .ok e ↔
        ∃ steps, proofSteps fs labels stat proof = .ok steps ∧
          proveLoop fs labels steps [] = .ok [e]) ∧
      (∀ steps stack, proofSteps fs labels stat proof = .ok steps →
        proveLoop fs labels steps [] = .ok stack → stack.length ≠ 1 →
        prove fs labels lbl stat proof = .error (.mm "stack has >1 entry at end")) ∧
      (∀ e, prove fs labels lbl stat proof = .ok e → e ≠ stat →
        verify fs labels lbl stat proof = .error (.mm "assertion proved doesn't match")) := by
  intro fs labels lbl stat proof
  have hProve : ∀ e, prove fs labels lbl stat proof = .ok e ↔
      ∃ steps, proofSteps fs labels stat proof = .ok steps ∧
        proveLoop fs labels steps [] = .ok [e] := by
    intro e
    constructor
    · intro h
      rw [prove] at h
      cases h1 : proofSteps fs labels stat proof with
      | error err => rw [h1] at h; cases h
      | ok steps =>
        simp only [h1] at h
        cases h2 : proveLoop fs labels steps [] with
        | error err => simp only [h2] at h; cases h
        | ok stack =>
          simp only [h2] at h
          cases stack with
          | nil => cases h
          | cons e0 t =>
            cases t with
            | nil =>
              simp only [Except.ok.injEq] at h
              exact ⟨steps, rfl, by rw [h2, h]⟩
            | cons e1 t2 => cases h
    · rintro ⟨steps, h1, h2⟩
      simp only [prove, h1, h2]
  refine ⟨?_, hProve, ?_, ?_⟩
  · constructor
    · intro h
      rw [verify] at h
      cases hp : prove fs labels lbl stat proof with
      | error err => rw [hp] at h; cases h
      | ok r =>
        rw [hp] at h
        by_cases hr : r = stat
        · subst hr
          exact (hProve r).mp hp
        · simp [hr] at h
    · rintro ⟨steps, h1, h2⟩
      have hp : prove fs labels lbl stat proof = .ok stat :=
        (hProve stat).mpr ⟨steps, h1, h2⟩
      simp [verify, hp]
  · intro steps stack h1 h2 hlen
    simp only [prove, h1, h2]
    cases stack with
    | nil => rfl
    | cons e0 t =>
      cases t with
      | nil => exact absurd rfl hlen
      | cons e1 t2 => rfl
  · intro e hp hne
    simp only [verify, hp]
    simp [hne]

/-- Claim C1 (witness): with the S1 database state, a two-step proof
leaves two stack entries and fails with the stack-size error, and a
proof deriving an expression other than the stated conclusion fails
with the assertion-mismatch error. -/
theorem prove_verify_correct_witness :
    prove fs1 labels1 "wnew" stat1 ["wp", "wq"] =
      .error (.mm "stack has >1 entry at end") ∧
    verify fs1 labels1 "wnew" ["wff", "p"] ["wp", "wq", "w2"] =
      .error (.mm "assertion proved doesn't match") := by
  constructor
  · exact (prove_verify_correct fs1 labels1 "wnew" stat1 ["wp", "wq"]).2.2.1
      ["wp", "wq"] [["wff", "q"], ["wff", "p"]] (by decide) (by decide) (by decide)
  · exact (prove_verify_correct fs1 labels1 "wnew" ["wff", "p"] ["wp", "wq", "w2"]).2.2.2
      stat1 (by decide) (by decide)

/-- The state-threaded expansion loop hands back exactly the state it
was given. -/
theorem expandLoopS_state :
    ∀ (ints : List CInt) (subproofs prevRev : List (List Nat)) (acc : List Nat)
      (mm : MMState) (labelsList : List String) (hypEnd labelEnd : Nat)
      (r : List Nat × MMState),
      expandLoopS mm labelsList hypEnd labelEnd ints subproofs prevRev acc = .ok r →
      r.2 = mm := by
  intro ints
  induction ints with
  | nil =>
    intro subproofs prevRev acc mm labelsList hypEnd labelEnd r h
    simp only [expandLoopS, Except.ok.injEq] at h
    rw [← h]
  | cons i rest ih =>
    intro subproofs prevRev acc mm labelsList hypEnd labelEnd r h
    cases i with
    | mark =>
      cases prevRev with
      | nil => simp [expandLoopS] at h
      | cons p t =>
        simp only [expandLoopS] at h
        exact ih _ _ _ mm labelsList hypEnd labelEnd r h
    | val n =>
      simp only [expandLoopS] at h
      by_cases h1 : n < hypEnd
      · simp only [if_pos h1] at h
        exact ih _ _ _ mm labelsList hypEnd labelEnd r h
      · simp only [if_neg h1] at h
        by_cases h2 : n < labelEnd
        · simp only [if_pos h2] at h
          cases hget : labelsList.get? n with
          | none => simp only [hget] at h; cases h
          | some lbl =>
            simp only [hget] at h
            cases hlk : lookupTbl mm.labels lbl with
            | none => simp only [hlk] at h; cases h
            | some data =>
              simp only [hlk] at h
              cases data with
              | f kind var => exact ih _ _ _ mm labelsList hypEnd labelEnd r h
              | e stat => exact ih _ _ _ mm labelsList hypEnd labelEnd r h
              | a asr =>
                simp only [] at h
                by_cases hz : asr.f_hyps.length + asr.e_hyps.length ≠ 0
                · simp only [if_pos hz] at h
                  exact ih _ _ _ mm labelsList hypEnd labelEnd r h
                · simp only [if_neg hz] at h
                  exact ih _ _ _ mm labelsList hypEnd labelEnd r h
              | p asr =>
                simp only [] at h
                by_cases hz : asr.f_hyps.length + asr.e_hyps.length ≠ 0
                · simp only [if_pos hz] at h
                  exact ih _ _ _ mm labelsList hypEnd labelEnd r h
                · simp only [if_neg hz] at h
                  exact ih _ _ _ mm labelsList hypEnd labelEnd r h
        · simp only [if_neg h2] at h
          cases hget : subproofs.get? (n - labelEnd) with
          | none => simp only [hget] at h; cases h
          | some p =>
            simp only [hget] at h
            exact ih _ _ _ mm labelsList hypEnd labelEnd r h

/-- The state-threaded decompressor hands back exactly the state it was
given. -/
theorem decompress_proofS_state :
    ∀ (mm : MMState) (stat proof : List String) (r : List String × MMState),
      decompress_proofS mm stat proof = .ok r → r.2 = mm := by
  intro mm stat proof r h
  rw [decompress_proofS] at h
  cases hma : make_assertion mm.fs stat with
  | error err => rw [hma] at h; cases h
  | ok asr =>
    simp only [hma] at h
    cases hmh : asr.f_hyps.mapM (fun kv => lookup_f mm.fs kv.2) with
    | error err => simp only [hmh] at h; cases h
    | ok mandHyps =>
      simp only [hmh] at h
      cases hhh : asr.e_hyps.mapM (fun s => lookup_e mm.fs s) with
      | error err => simp only [hhh] at h; cases h
      | ok hyps =>
        simp only [hhh] at h
        cases hep : proof.findIdx? (fun t => t = ")") with
        | none => simp only [hep] at h; cases h
        | some ep =>
          simp only [hep] at h
          cases hex : expandLoopS mm (mandHyps ++ hyps ++ ((proof.drop 1).take (ep - 1)))
              (mandHyps.length + hyps.length)
              (mandHyps ++ hyps ++ ((proof.drop 1).take (ep - 1))).length
              (decodeInts (String.join (proof.drop (ep + 1))).toList 0) [] [] [] with
          | error err => simp only [hex] at h; cases h
          | ok ds2 =>
            simp only [hex] at h
            cases hmap : (ds2.1.mapM (fun i =>
                match (mandHyps ++ hyps ++ ((proof.drop 1).take (ep - 1))).get? i with
                | none => Except.error PyError.indexError
                | some l => Except.ok l) : Except PyError (List String)) with
            | error err => simp only [hmap] at h; cases h
            | ok out =>
              simp only [hmap, Except.ok.injEq] at h
              have h2 := expandLoopS_state _ _ _ _ _ _ _ _ _ hex
              rw [← h, ← h2]

/-- The state-threaded step loop hands back exactly the state it was
given. -/
theorem proveLoopS_state :
    ∀ (steps : List String) (stack : List (List String)) (mm : MMState)
      (r : List (List String) × MMState),
      proveLoopS mm steps stack = .ok r → r.2 = mm := by
  intro steps
  induction steps with
  | nil =>
    intro stack mm r h
    simp only [proveLoopS, Except.ok.injEq] at h
    rw [← h]
  | cons lbl rest ih =>
    intro stack mm r h
    rw [proveLoopS] at h
    cases hlk : lookupTbl mm.labels lbl with
    | none => rw [hlk] at h; cases h
    | some data =>
      rw [hlk] at h
      cases data with
      | f kind var => exact ih _ mm r h
      | e stat => exact ih _ mm r h
      | a asr =>
        simp only at h
        cases hstep : stepAssertion mm.fs asr stack with
        | error err => rw [hstep] at h; cases h
        | ok stack2 => rw [hstep] at h; exact ih _ mm r h
      | p asr =>
        simp only at h
        cases hstep : stepAssertion mm.fs asr stack with
        | error err => rw [hstep] at h; cases h
        | ok stack2 => rw [hstep] at h; exact ih _ mm r h

/-- Claim C9: the proof checker — including compressed-proof
decompression — hands back the session state (frame stack and label
table) it was given: all mutation is confined to its private stacks. -/
theorem prove_frame_effect :
    ∀ (mm : MMState) (lbl : String) (stat proof : List String),
      (∀ r, proveS mm lbl stat proof = .ok r → r.2 = mm) ∧
      (∀ r, decompress_proofS mm stat proof = .ok r → r.2 = mm) := by
  intro mm lbl stat proof
  constructor
  · intro r h
    rw [proveS] at h
    cases hps : proofStepsS mm stat proof with
    | error err => rw [hps] at h; cases h
    | ok sm =>
      have hsm : sm.2 = mm := by
        cases proof with
        | nil => simp [proofStepsS] at hps
        | cons t rest =>
          rw [proofStepsS] at hps
          by_cases ht : t = "("
          · rw [if_pos ht] at hps
            exact decompress_proofS_state mm stat (t :: rest) sm hps
          · rw [if_neg ht] at hps
            simp only [Except.ok.injEq] at hps
            rw [← hps]
      simp only [hps] at h
      cases hpl : proveLoopS sm.2 sm.1 [] with
      | error err => simp only [hpl] at h; cases h
      | ok sr =>
        simp only [hpl] at h
        have hsr : sr.2 = sm.2 := proveLoopS_state sm.1 [] sm.2 sr hpl
        cases hst : sr.1 with
        | nil => simp only [hst] at h; cases h
        | cons e0 t =>
          cases t with
          | nil =>
            simp only [hst, Except.ok.injEq] at h
            rw [← h, hsr, hsm]
          | cons e1 t2 =>
            simp only [hst] at h
            cases h
  · intro r h
    exact decompress_proofS_state mm stat proof r h

/-- Claim C9 (witness). -/
theorem prove_frame_effect_witness :
    ((stat1, mm1) : List String × MMState).2 = mm1 ∧
    (((["lblA"], (⟨fsX, lblX⟩ : MMState))) : List String × MMState).2 = (⟨fsX, lblX⟩ : MMState) := by
  constructor
  · exact (prove_frame_effect mm1 "wnew" stat1 ["wp", "wq", "w2"]).1 (stat1, mm1) (by decide)
  · exact (prove_frame_effect ⟨fsX, lblX⟩ "z" ["wff"] ["(", "lblA", ")", "A"]).2
      (["lblA"], ⟨fsX, lblX⟩) (by decide)

/-- Frame-wise agreement of the source walk (which erases emitted
variables from its working set) with the spec walk (which tracks the
emitted set explicitly), under the invariant that the working set is
the mandatory set minus the emitted set. -/
theorem collectFrame_spec :
    ∀ (l : List (String × String)) (mv mand emitted : List String)
      (acc : List (String × String)),
      mv.Nodup → (∀ w, w ∈ mv ↔ (w ∈ mand ∧ w ∉ emitted)) →
      (collectFrame l mv acc).1 = (specWalkFrame l mand emitted acc).1 ∧
      (collectFrame l mv acc).2.Nodup ∧
      (∀ w, w ∈ (collectFrame l mv acc).2 ↔
        (w ∈ mand ∧ w ∉ (specWalkFrame l mand emitted acc).2)) := by
  intro l
  induction l with
  | nil =>
    intro mv mand emitted acc hnd hiff
    exact ⟨rfl, hnd, hiff⟩
  | cons vk rest ih =>
    intro mv mand emitted acc hnd hiff
    obtain ⟨v, k⟩ := vk
    by_cases hv : v ∈ mv
    · have hcond : v ∈ mand ∧ v ∉ emitted := (hiff v).mp hv
      rw [collectFrame, if_pos hv, specWalkFrame, if_pos hcond]
      apply ih
      · exact hnd.erase v
      · intro w
        rw [List.Nodup.mem_erase_iff hnd, hiff w, List.mem_cons]
        tauto
    · have hcond : ¬(v ∈ mand ∧ v ∉ emitted) := fun hc => hv ((hiff v).mpr hc)
      rw [collectFrame, if_neg hv, specWalkFrame, if_neg hcond]
      exact ih mv mand emitted acc hnd hiff

/-- Stack-wise agreement of the source walk with the spec walk. -/
theorem collectF_spec :
    ∀ (frames : List Frame) (mv mand emitted : List String)
      (acc : List (String × String)),
      mv.Nodup → (∀ w, w ∈ mv ↔ (w ∈ mand ∧ w ∉ emitted)) →
      (collectF frames mv acc).1 = (specWalk frames mand emitted acc).1 := by
  intro frames
  induction frames with
  | nil =>
    intro mv mand emitted acc hnd hiff
    rfl
  | cons fr rest ih =>
    intro mv mand emitted acc hnd hiff
    obtain ⟨heq, hnd2, hiff2⟩ := collectFrame_spec fr.f.reverse mv mand emitted acc hnd hiff
    simp only [collectF, specWalk]
    rw [heq]
    exact ih _ _ _ _ hnd2 hiff2

/-- Structural invariants of the source walk, frame-wise: variables
emitted so far stay unique, the working set shrinks exactly by the
emitted variables, and each emitted pair records an actual floating
hypothesis of the frame. -/
theorem collectFrame_inv :
    ∀ (l : List (String × String)) (mv : List String) (acc : List (String × String)),
      mv.Nodup → (∀ w ∈ mv, w ∉ acc.map Prod.snd) → (acc.map Prod.snd).Nodup →
      ((collectFrame l mv acc).1.map Prod.snd).Nodup ∧
      (collectFrame l mv acc).2.Nodup ∧
      (∀ w ∈ (collectFrame l mv acc).2, w ∉ (collectFrame l mv acc).1.map Prod.snd) ∧
      (∀ w, w ∈ (collectFrame l mv acc).1.map Prod.snd ↔
        (w ∈ acc.map Prod.snd ∨ (w ∈ mv ∧ ∃ k2, (w, k2) ∈ l))) ∧
      (∀ w, w ∈ (collectFrame l mv acc).2 ↔ (w ∈ mv ∧ ¬∃ k2, (w, k2) ∈ l)) ∧
      (∀ k2 w, (k2, w) ∈ (collectFrame l mv acc).1 →
        ((k2, w) ∈ acc ∨ (w ∈ mv ∧ (w, k2) ∈ l))) := by
  intro l
  induction l with
  | nil =>
    intro mv acc hnd hdisj hacc
    refine ⟨hacc, hnd, ?_, ?_, ?_, ?_⟩
    · intro w hw
      exact hdisj w hw
    · intro w
      simp [collectFrame]
    · intro w
      simp [collectFrame]
    · intro k2 w hk
      exact Or.inl hk
  | cons vk rest ih =>
    intro mv acc hnd hdisj hacc
    obtain ⟨v, k⟩ := vk
    by_cases hv : v ∈ mv
    · rw [collectFrame, if_pos hv]
      have hvacc : v ∉ acc.map Prod.snd := hdisj v hv
      have hnd2 : (mv.erase v).Nodup := hnd.erase v
      have hdisj2 : ∀ w ∈ mv.erase v, w ∉ ((k, v) :: acc).map Prod.snd := by
        intro w hw
        have hw2 := (List.Nodup.mem_erase_iff hnd).mp hw
        simp only [List.map_cons, List.mem_cons]
        rintro (h | h)
        · exact hw2.1 h
        · exact hdisj w hw2.2 h
      have hacc2 : (((k, v) :: acc).map Prod.snd).Nodup := by
        simp only [List.map_cons]
        exact List.nodup_cons.mpr ⟨hvacc, hacc⟩
      obtain ⟨i1, i2, i3, i4, i5, i6⟩ := ih (mv.erase v) ((k, v) :: acc) hnd2 hdisj2 hacc2
      refine ⟨i1, i2, i3, ?_, ?_, ?_⟩
      · intro w
        rw [i4 w, List.Nodup.mem_erase_iff hnd]
        simp only [List.map_cons, List.mem_cons, Prod.mk.injEq]
        constructor
        · rintro ((h | h) | ⟨⟨hne, hmv⟩, k2, hk2⟩)
          · subst h
            exact Or.inr ⟨hv, k, Or.inl ⟨rfl, rfl⟩⟩
          · exact Or.inl h
          · exact Or.inr ⟨hmv, k2, Or.inr hk2⟩
        · rintro (h | ⟨hmv, k2, (⟨h1, h2⟩ | hk2)⟩)
          · exact Or.inl (Or.inr h)
          · subst h1
            exact Or.inl (Or.inl rfl)
          · by_cases hwv : w = v
            · subst hwv
              exact Or.inl (Or.inl rfl)
            · exact Or.inr ⟨⟨hwv, hmv⟩, k2, hk2⟩
      · intro w
        rw [i5 w, List.Nodup.mem_erase_iff hnd]
        simp only [List.mem_cons, Prod.mk.injEq, not_exists]
        constructor
        · rintro ⟨⟨hne, hmv⟩, hnex⟩
          refine ⟨hmv, ?_⟩
          intro k2
          rintro (⟨h1, h2⟩ | hk2)
          · exact hne h1
          · exact hnex k2 hk2
        · rintro ⟨hmv, hnex⟩
          by_cases hwv : w = v
          · subst hwv
            exact absurd (Or.inl ⟨rfl, rfl⟩) (hnex k)
          · exact ⟨⟨hwv, hmv⟩, fun k2 hk2 => hnex k2 (Or.inr hk2)⟩
      · intro k2 w hk
        rcases i6 k2 w hk with h | ⟨hmv, hp⟩
        · rcases List.mem_cons.mp h with h2 | h2
          · rw [Prod.mk.injEq] at h2
            obtain ⟨rfl, rfl⟩ := h2
            exact Or.inr ⟨hv, List.mem_cons_self _ _⟩
          · exact Or.inl h2
        · have hmv2 := (List.Nodup.mem_erase_iff hnd).mp hmv
          exact Or.inr ⟨hmv2.2, List.mem_cons_of_mem _ hp⟩
    · rw [collectFrame, if_neg hv]
      obtain ⟨i1, i2, i3, i4, i5, i6⟩ := ih mv acc hnd hdisj hacc
      refine ⟨i1, i2, i3, ?_, ?_, ?_⟩
      · intro w
        rw [i4 w]
        simp only [List.mem_cons, Prod.mk.injEq]
        constructor
        · rintro (h | ⟨hmv, k2, hk2⟩)
          · exact Or.inl h
          · exact Or.inr ⟨hmv, k2, Or.inr hk2⟩
        · rintro (h | ⟨hmv, k2, (⟨h1, h2⟩ | hk2)⟩)
          · exact Or.inl h
          · subst h1
            exact absurd hmv hv
          · exact Or.inr ⟨hmv, k2, hk2⟩
      · intro w
        rw [i5 w]
        simp only [List.mem_cons, Prod.mk.injEq, not_exists]
        constructor
        · rintro ⟨hmv, hnex⟩
          refine ⟨hmv, ?_⟩
          intro k2
          rintro (⟨h1, h2⟩ | hk2)
          · subst h1
            exact hv hmv
          · exact hnex k2 hk2
        · rintro ⟨hmv, hnex⟩
          exact ⟨hmv, fun k2 hk2 => hnex k2 (Or.inr hk2)⟩
      · intro k2 w hk
        rcases i6 k2 w hk with h | ⟨hmv, hp⟩
        · exact Or.inl h
        · exact Or.inr ⟨hmv, List.mem_cons_of_mem _ hp⟩

/-- Structural invariants of the source walk over the whole frame
stack. -/
theorem collectF_inv :
    ∀ (frames : List Frame) (mv : List String) (acc : List (String × String)),
      mv.Nodup → (∀ w ∈ mv, w ∉ acc.map Prod.snd) → (acc.map Prod.snd).Nodup →
      ((collectF frames mv acc).1.map Prod.snd).Nodup ∧
      (∀ w, w ∈ (collectF frames mv acc).1.map Prod.snd ↔
        (w ∈ acc.map Prod.snd ∨ (w ∈ mv ∧ ∃ fr ∈ frames, ∃ k2, (w, k2) ∈ fr.f))) ∧
      (∀ k2 w, (k2, w) ∈ (collectF frames mv acc).1 →
        ((k2, w) ∈ acc ∨ (w ∈ mv ∧ ∃ fr ∈ frames, (w, k2) ∈ fr.f))) := by
  intro frames
  induction frames with
  | nil =>
    intro mv acc hnd hdisj hacc
    refine ⟨hacc, ?_, ?_⟩
    · intro w
      simp [collectF]
    · intro k2 w hk
      exact Or.inl hk
  | cons fr rest ih =>
    intro mv acc hnd hdisj hacc
    obtain ⟨c1, c2, c3, c4, c5, c6⟩ := collectFrame_inv fr.f.reverse mv acc hnd hdisj hacc
    obtain ⟨i1, i2, i3⟩ := ih (collectFrame fr.f.reverse mv acc).2
      (collectFrame fr.f.reverse mv acc).1 c2 c3 c1
    simp only [collectF]
    refine ⟨i1, ?_, ?_⟩
    · intro w
      rw [i2 w, c4 w, c5 w]
      simp only [List.mem_reverse, List.exists_mem_cons_iff]
      tauto
    · intro k2 w hk
      rcases i3 k2 w hk with h | ⟨hmv, frx, hfrx, hp⟩
      · rcases c6 k2 w h with h2 | ⟨hmv2, hp2⟩
        · exact Or.inl h2
        · exact Or.inr ⟨hmv2, fr, List.mem_cons_self fr rest, List.mem_reverse.mp hp2⟩
      · have hmv2 : w ∈ mv := ((c5 w).mp hmv).1
        exact Or.inr ⟨hmv2, frx, List.mem_cons_of_mem _ hfrx, hp⟩

/-- Claim C2: the `mand_hyps` component of `make_assertion` equals the
spec's walk (frames innermost to outermost, each floating list in
reverse, prepending each `(kind, var)` whose variable is mandatory and
not yet emitted); no variable appears twice; every emitted pair records
a floating hypothesis of some frame whose variable is mandatory; a
variable appears exactly when it is mandatory and carries a floating
hypothesis in some frame; and a variable is mandatory exactly when it
is an active variable occurring in the conclusion or in an essential
hypothesis in scope. -/
theorem make_assertion_mand_hyps :
    ∀ (fs : FrameStack) (stat : List String),
      (make_assertion_core fs stat).f_hyps = specMandHyps fs (mandVars fs stat) ∧
      ((make_assertion_core fs stat).f_hyps.map Prod.snd).Nodup ∧
      (∀ k v, (k, v) ∈ (make_assertion_core fs stat).f_hyps →
        v ∈ mandVars fs stat ∧ fs.any (fun fr => decide ((v, k) ∈ fr.f)) = true) ∧
      (∀ v, v ∈ (make_assertion_core fs stat).f_hyps.map Prod.snd ↔
        (v ∈ mandVars fs stat ∧
          fs.any (fun fr => fr.f.any (fun p => decide (p.1 = v))) = true)) ∧
      (∀ v, v ∈ mandVars fs stat ↔
        (lookup_v v fs = true ∧ (v ∈ stat ∨ ∃ e2 ∈ eHypsOf fs, v ∈ e2))) := by
  intro fs stat
  have hnd : (mandVars fs stat).Nodup := List.nodup_dedup _
  have hfh : (make_assertion_core fs stat).f_hyps = (collectF fs (mandVars fs stat) []).1 := by
    simp [make_assertion_core]
  obtain ⟨i1, i2, i3⟩ := collectF_inv fs (mandVars fs stat) [] hnd (by simp) (by simp)
  refine ⟨?_, ?_, ?_, ?_, ?_⟩
  · rw [hfh, specMandHyps]
    exact collectF_spec fs (mandVars fs stat) (mandVars fs stat) [] [] hnd (by simp)
  · rw [hfh]
    exact i1
  · intro k v hkv
    rw [hfh] at hkv
    rcases i3 k v hkv with h | ⟨hmv, fr, hfr, hp⟩
    · cases h
    · refine ⟨hmv, ?_⟩
      rw [List.any_eq_true]
      exact ⟨fr, hfr, by simp [hp]⟩
  · intro v
    rw [hfh, i2 v]
    simp only [List.map_nil, List.not_mem_nil, false_or]
    constructor
    · rintro ⟨hmv, fr, hfr, k2, hk2⟩
      refine ⟨hmv, ?_⟩
      rw [List.any_eq_true]
      refine ⟨fr, hfr, ?_⟩
      rw [List.any_eq_true]
      exact ⟨(v, k2), hk2, by simp⟩
    · rintro ⟨hmv, hany⟩
      rw [List.any_eq_true] at hany
      obtain ⟨fr, hfr, hany2⟩ := hany
      rw [List.any_eq_true] at hany2
      obtain ⟨p, hp, hpv⟩ := hany2
      rw [decide_eq_true_eq] at hpv
      refine ⟨hmv, fr, hfr, p.2, ?_⟩
      rw [← hpv]
      exact hp
  · intro v
    simp only [mandVars, List.mem_dedup, List.mem_filter, List.mem_flatMap, id,
      List.mem_append, List.mem_singleton]
    constructor
    · rintro ⟨⟨l2, hl2 | hl2, hv⟩, hlv⟩
      · exact ⟨hlv, Or.inr ⟨l2, hl2, hv⟩⟩
      · subst hl2
        exact ⟨hlv, Or.inl hv⟩
    · rintro ⟨hlv, hv | ⟨e2, he2, hv⟩⟩
      · exact ⟨⟨stat, Or.inr rfl, hv⟩, hlv⟩
      · exact ⟨⟨e2, Or.inl he2, hv⟩, hlv⟩

/-- Claim C2 (witness). -/
theorem make_assertion_mand_hyps_witness :
    "p" ∈ mandVars fs1 stat1 ∧
    fs1.any (fun fr => decide (("p", "wff") ∈ fr.f)) = true := by
  exact (make_assertion_mand_hyps fs1 stat1).2.2.1 "wff" "p" (by decide)

end MMV
